import Mathlib

/-!
Verification development for the `wgrabber` manga image grabber.

This file gives a shallow embedding, in Lean 4, of the parts of the
repository that the specification talks about:

* `wgrabber/url_processor.py` — the URL template engine (`URLProcessor`):
  `_generate_template`, `normal_url_list`, `special_url_list`;
* `wgrabber/image_grabber.py` — the adaptive rate controller updated in
  `_page_crawl`, the retrying image fetch `_download_image_with_retry`,
  the single-image download with extension fallback
  `_download_single_image`, the concurrent download pipeline
  `_download_list` (including its rate-limiter gate), the archive step
  `_create_zip` and the sort key `_safe_sort_key`.

Strings are `List Char`.  Python floats are modelled exactly over `ℚ`
(the relevant multipliers 1.5 and 0.9 and the monotonicity facts proved
here do not depend on binary rounding).  Fallible Python code is modelled
with `Except`.
-/

/-- Convenience: the character list of a string literal. -/
def chars (s : String) : List Char := s.data

/- ====================  url_processor.py  ==================== -/

/-- `LC_LIST` from `url_processor.py`. -/
def LC_LIST : List Char := ['a', 'b', 'c', 'd', 'e', 'f', 'g']

/-- `CAP_LIST` from `url_processor.py`. -/
def CAP_LIST : List Char := ['A', 'B', 'C', 'D', 'E', 'F', 'G']

/-- `NUM_LIST` from `url_processor.py`. -/
def NUM_LIST : List Char := ['0', '1', '2', '3', '4', '5', '6']

/-- `LC_LIST + CAP_LIST + NUM_LIST`, the suffix alphabet used by
`special_url_list`. -/
def sp_c_list : List Char := LC_LIST ++ CAP_LIST ++ NUM_LIST

/-- Python `s.split(sep)[-1]`: the characters after the last occurrence of
`sep` (the whole string when `sep` does not occur). -/
def lastSegBy (sep : Char) (s : List Char) : List Char :=
  (s.reverse.takeWhile (fun c => c != sep)).reverse

/-- `url.split("/")[-1]` from `_generate_template`. -/
def lastSeg (s : List Char) : List Char := lastSegBy '/' s

/-- Accumulator-based scanner behind `digitRuns`. -/
def digitRunsAux : List Char → List Char → List (List Char)
  | [], acc => if acc.isEmpty then [] else [acc.reverse]
  | c :: cs, acc =>
    if c.isDigit then digitRunsAux cs (c :: acc)
    else if acc.isEmpty then digitRunsAux cs []
    else acc.reverse :: digitRunsAux cs []

/-- `re.findall(r"\d+", s)`: the maximal runs of decimal digits of `s`,
left to right.  (The sample URLs are ASCII, so `\d` is `[0-9]`.) -/
def digitRuns (s : List Char) : List (List Char) := digitRunsAux s []

/-- The key list of the Python replacement dict: a `dict` keeps the first
insertion position of each key, so the alternation `"|".join(rep.keys())`
lists the distinct run strings in order of first appearance.
(`re.escape` is the identity on digit strings.) -/
def dedupFirst : List (List Char) → List (List Char)
  | [] => []
  | r :: rs => r :: (dedupFirst rs).filter (fun x => x != r)

/-- The value stored in the Python replacement dict for key `k`: later
insertions overwrite earlier ones, so the recorded placeholder index is
the index of the last occurrence of `k` in the run list. -/
def lastIdx : List (List Char) → List Char → Nat
  | [], _ => 0
  | _ :: rs, k => if k ∈ rs then lastIdx rs k + 1 else 0

/-- First alternative of the alternation `k1|k2|...` that matches at the
start of `s` — Python's `re` alternation takes the leftmost alternative
that matches, not the longest.  (The guard `!k.isEmpty` only serves
termination of the scanner; every key is a nonempty digit run.) -/
def firstMatch (keys : List (List Char)) (s : List Char) : Option (List Char) :=
  match keys with
  | [] => none
  | k :: ks => if !k.isEmpty && k.isPrefixOf s then some k else firstMatch ks s

/-- One unit of the generated template string: a literal character, or the
placeholder `\x7bvar i\x7d` represented symbolically. -/
inductive Tok where
  | ch (c : Char)
  | var (i : Nat)
  deriving DecidableEq, Repr

/-- `pattern.sub(lambda m: rep[re.escape(m.group(0))], url)`: scan the text
left to right; at each position substitute the first matching alternative
(consuming it) or keep the character. -/
def subScanGo (keys : List (List Char)) (v : List Char → Nat) : Nat → List Char → List Tok
  | _, [] => []
  | 0, _ :: _ => []
  | fuel + 1, c :: cs =>
    match firstMatch keys (c :: cs) with
    | some k => Tok.var (v k) :: subScanGo keys v fuel (List.drop k.length (c :: cs))
    | none => Tok.ch c :: subScanGo keys v fuel cs

/-- The scanner proper: the fuel `s.length` suffices because every step
(a matched nonempty key, or a kept character) consumes at least one
character. -/
def subScan (keys : List (List Char)) (v : List Char → Nat) (s : List Char) : List Tok :=
  subScanGo keys v s.length s

/-- The template value computed by `URLProcessor._generate_template`
together with the recorded digit widths (`self.n_digits`) and the
placeholder count (`self.num_vars`). -/
structure URLTemplate where
  toks : List Tok
  n_digits : List Nat
  num_vars : Nat
  deriving DecidableEq, Repr

/-- The exception the constructor can raise.  The code never defines a
`TemplateError`; when the final segment has no digit run the empty
alternation pattern matches the empty string at position 0 and the
substitution callback raises `KeyError` from `rep[""]`.  The
`templateError` constructor names the error the specification asks for,
for comparison; the code cannot produce it. -/
inductive PyErr where
  | keyError
  | templateError
  deriving DecidableEq, Repr

/-- `URLProcessor._generate_template` (url_processor.py lines 29-44):
digit runs of the final path segment become the replacement keys, the
substitution runs over the whole URL.  With zero runs the Python code
raises `KeyError` (see `PyErr`). -/
def generate_template (url : List Char) : Except PyErr URLTemplate :=
  let fn := lastSeg url
  let runs := digitRuns fn
  if runs = [] then Except.error PyErr.keyError
  else
    Except.ok
      { toks := subScan (dedupFirst runs) (lastIdx runs) url
        n_digits := runs.map List.length
        num_vars := runs.length }

/-- Python `str(i)` for a natural number. -/
def natStr (n : Nat) : List Char := Nat.toDigits 10 n

/-- Python `s.zfill(w)` for a sign-free string: left-pad with `'0'` to
width `w` (never truncates). -/
def zfill (w : Nat) (s : List Char) : List Char :=
  List.replicate (w - s.length) '0' ++ s

/-- `template.format(**rep_dict)`: substitute each placeholder token by
the string the assignment gives its index. -/
def render : List Tok → (Nat → List Char) → List Char
  | [], _ => []
  | Tok.ch c :: ts, f => c :: render ts f
  | Tok.var i :: ts, f => f i ++ render ts f

/-- `URLProcessor.normal_url_list` (lines 46-55): for `i` in
`range(0, pnum + 1)` substitute every placeholder `var t` by
`str(i).zfill(n_digits[t])`. -/
def normal_url_list (t : URLTemplate) (pnum : Nat) : List (List Char) :=
  (List.range (pnum + 1)).map fun i =>
    render t.toks fun k => zfill (t.n_digits.getD k 0) (natStr i)

/-- `URLProcessor.special_url_list` (lines 57-77): for each symbol `c` of
`sp_c_list`, every placeholder except the one with the highest index gets
`"0".zfill(width)`; the highest-index placeholder additionally gets the
separator (when nonempty) and the symbol appended. -/
def special_url_list (t : URLTemplate) (sep : List Char) : List (List Char) :=
  sp_c_list.map fun c =>
    render t.toks fun k =>
      if !sep.isEmpty then
        if k < t.num_vars - 1 then zfill (t.n_digits.getD k 0) ['0']
        else zfill (t.n_digits.getD k 0) ['0'] ++ sep ++ [c]
      else
        if k < t.num_vars - 1 then zfill (t.n_digits.getD k 0) ['0']
        else zfill (t.n_digits.getD k 0) ['0'] ++ [c]

/- Decomposition of a URL into literal parts interleaved with the digit
runs, used to state which URLs the template engine treats cleanly. -/

/-- `interleave [p0, p1, ..., pm] [r0, ..., r(m-1)]` is
`p0 ++ r0 ++ p1 ++ ... ++ r(m-1) ++ pm`. -/
def interleave : List (List Char) → List (List Char) → List Char
  | p :: ps, r :: rs => p ++ r ++ interleave ps rs
  | p :: _, [] => p
  | [], _ => []

/-- `weave [p0,...,p(m-1)] [v0,...,v(m-1)] = p0 ++ v0 ++ ... ++ p(m-1) ++ v(m-1)`. -/
def weave : List (List Char) → List (List Char) → List Char
  | p :: ps, r :: rs => p ++ r ++ weave ps rs
  | [], _ => []
  | _ :: _, [] => []

/-- No alternation key matches at any position `< n` of `s`. -/
def noKeyBelow (keys : List (List Char)) (s : List Char) (n : Nat) : Bool :=
  (List.range n).all fun i => keys.all fun k => !(k.isPrefixOf (s.drop i))

/-- `cleanB keys parts runs`: scanning `interleave parts runs`, no key
matches inside a literal part, and at each run position the first
matching alternative is that run itself.  This is exactly the situation
in which the substitution of `_generate_template` replaces the digit runs
and nothing else. -/
def cleanB (keys : List (List Char)) : List (List Char) → List (List Char) → Bool
  | p :: ps, r :: rs =>
    noKeyBelow keys (p ++ r ++ interleave ps rs) p.length
      && decide (firstMatch keys (r ++ interleave ps rs) = some r)
      && cleanB keys ps rs
  | [p], [] => noKeyBelow keys p p.length
  | [], _ => false
  | _ :: _ :: _, [] => false

/-- The token list the specification expects: each part literal, each run
replaced by the placeholder of its own (left-to-right) index. -/
def specToks : List (List Char) → List (List Char) → Nat → List Tok
  | p :: ps, r :: rs, k => (p.map Tok.ch ++ [Tok.var k]) ++ specToks ps rs (k + 1)
  | p :: _, [], _ => p.map Tok.ch
  | [], _, _ => []
  termination_by ps _ _ => ps.length
  decreasing_by simp [Nat.lt_succ_self]

/-- The token list actually produced on a clean URL: each run replaced by
the placeholder the Python dict assigned to its string. -/
def tmplToks : List (List Char) → List (List Char) → (List Char → Nat) → List Tok
  | p :: ps, r :: rs, v => (p.map Tok.ch ++ [Tok.var (v r)]) ++ tmplToks ps rs v
  | p :: _, [], _ => p.map Tok.ch
  | [], _, _ => []
  termination_by ps _ _ => ps.length
  decreasing_by simp [Nat.lt_succ_self]

/-- The placeholder indices occurring in a template, in order. -/
def varIdxs (toks : List Tok) : List Nat :=
  toks.filterMap fun t =>
    match t with
    | Tok.var i => some i
    | Tok.ch _ => none

/-- The zero-padded zero substitutions, one per run. -/
def zfills (runs : List (List Char)) : List (List Char) :=
  runs.map fun r => zfill r.length ['0']

deriving instance DecidableEq for Except

/- ==========  image_grabber.py : adaptive rate controller  ========== -/

/-- The shared rate state of `ImageGrabber`: `current_delay`,
`success_count` and `consecutive_failures` (floats modelled over `ℚ`). -/
structure RateState where
  delay : ℚ
  succ : Nat
  fails : Nat
  deriving DecidableEq

/-- `self.min_delay = 2.0` (image_grabber.py line 74). -/
def min_delay : ℚ := 2

/-- `self.max_delay = 15.0` (line 75). -/
def max_delay : ℚ := 15

/-- The state set up in `__init__` (lines 69-76): delay 3.0, counters 0. -/
def initRate : RateState := { delay := 3, succ := 0, fails := 0 }

/-- A fetch outcome as classified by `_page_crawl`: HTTP 200, or a
blocked response (403/503/429). -/
inductive Outcome where
  | success
  | blocked
  deriving DecidableEq

/-- The rate-state update of `_page_crawl` (lines 309-326).  On 200:
reset failures, bump the success counter, and every time it reaches 5
with the delay above the floor, decay the delay by 0.9 (floored) and
reset the counter.  On 403/503/429: reset the success counter, bump the
failure counter, and grow the delay by 1.5 (capped). -/
def rateStep (s : RateState) : Outcome → RateState
  | Outcome.success =>
    if 5 ≤ s.succ + 1 ∧ min_delay < s.delay then
      { delay := max min_delay (s.delay * (9 / 10)), succ := 0, fails := 0 }
    else { delay := s.delay, succ := s.succ + 1, fails := 0 }
  | Outcome.blocked =>
    { delay := min max_delay (s.delay * (3 / 2)), succ := 0, fails := s.fails + 1 }

/-- The rate state after a finite sequence of outcome reports, starting
from the `__init__` state. -/
def rateRun (l : List Outcome) : RateState := l.foldl rateStep initRate

/- ==========  image_grabber.py : retrying image fetch  ========== -/

/-- The per-attempt classification made by `_download_image_with_retry`:
HTTP 200, 404, 403/503/429, any other status, or a transport
exception. -/
inductive Resp where
  | ok
  | notFound
  | blocked
  | other
  | exc
  deriving DecidableEq

/-- The observable behaviour of one `_download_image_with_retry` call:
whether a 200 response was returned, how many GET attempts were made,
the sleeps performed (seconds, in order), and the final
`consecutive_failures` value. -/
structure DlOut where
  got200 : Bool
  gets : Nat
  sleeps : List Nat
  fails : Nat
  deriving DecidableEq

/-- `wait_time = min(15 * (3 ** attempt), 90)` (line 422). -/
def imgWait (attempt : Nat) : Nat := min (15 * 3 ^ attempt) 90

/-- The retry loop of `_download_image_with_retry` (lines 402-457),
indexed by the remaining attempts (`remaining = max_retries - attempt`,
so the final attempt is `remaining = 1`).  200 returns the response and
resets the failure counter; 404 and unexpected statuses return `None` at
once; 403/503/429 bumps the failure counter and, on a non-final attempt,
sleeps `imgWait attempt` (refreshing the session and zeroing the counter
once it exceeds 3) before retrying; an exception sleeps 5 seconds before
a non-final retry.  Exhaustion returns `None`. -/
def dlRetryFrom (env : Nat → Resp) : Nat → Nat → Nat → DlOut
  | 0, _, fails => ⟨false, 0, [], fails⟩
  | remaining + 1, attempt, fails =>
    match env attempt with
    | Resp.ok => ⟨true, 1, [], 0⟩
    | Resp.notFound => ⟨false, 1, [], fails⟩
    | Resp.other => ⟨false, 1, [], fails⟩
    | Resp.blocked =>
      let fails1 := fails + 1
      if remaining = 0 then ⟨false, 1, [], fails1⟩
      else
        let failsNext := if 3 < fails1 then 0 else fails1
        let o := dlRetryFrom env remaining (attempt + 1) failsNext
        ⟨o.got200, o.gets + 1, imgWait attempt :: o.sleeps, o.fails⟩
    | Resp.exc =>
      if remaining = 0 then ⟨false, 1, [], fails⟩
      else
        let o := dlRetryFrom env remaining (attempt + 1) fails
        ⟨o.got200, o.gets + 1, 5 :: o.sleeps, o.fails⟩

/-- `_download_image_with_retry(file_url)` with the default
`max_retries = 3`, starting from failure count `fails0`. -/
def dlRetry (env : Nat → Resp) (fails0 : Nat) : DlOut :=
  dlRetryFrom env 3 0 fails0

/-- Python `s.split(".")[-1]`, the extension taken by
`_download_single_image` (line 481). -/
def extOf (u : List Char) : List Char := lastSegBy '.' u

/-- Fuel-indexed body of `pyReplace` (fuel = remaining length; each step
consumes at least one character). -/
def pyReplaceGo (old new : List Char) : Nat → List Char → List Char
  | _, [] => []
  | 0, s => s
  | fuel + 1, c :: cs =>
    if !old.isEmpty && old.isPrefixOf (c :: cs) then
      new ++ pyReplaceGo old new fuel (List.drop old.length (c :: cs))
    else c :: pyReplaceGo old new fuel cs

/-- Python `s.replace(old, new)`: replace every non-overlapping
occurrence of `old`, scanning left to right.  (The guard on `old`
being nonempty only serves termination; the call sites use `"jpg"` and
`"png"`.) -/
def pyReplace (s old new : List Char) : List Char := pyReplaceGo old new s.length s

/-- The alternate URL and extension computed by `_download_single_image`
(lines 484-490): `str.replace` swaps every occurrence of `jpg`/`png`
in the whole URL, not only the final extension segment. -/
def altUrlOf (file_url : List Char) : List Char × List Char :=
  if extOf file_url = chars "jpg" then
    (pyReplace file_url (chars "jpg") (chars "png"), chars "png")
  else
    (pyReplace file_url (chars "png") (chars "jpg"), chars "jpg")

/-- The observable behaviour of one `_download_single_image` call: the
URLs passed to `_download_image_with_retry` (in order), whether the
image was saved, and the saved filename. -/
structure SingleOut where
  fetched : List (List Char)
  success : Bool
  imgName : Option (List Char)
  deriving DecidableEq

/-- `_download_single_image` (lines 459-509): fetch `"https:" + url`
with retries; on failure (`r is None`, which covers the 404 case since
the retry helper only returns 200 responses) compute the alternate
extension-swapped URL and fetch it once; on a 200 decode and save as
`"{index}.{extension}"` (`saveOk` models the PIL decode/save, whose
`OSError` is caught and recorded as a failure). -/
def downloadSingle (env : List Char → Nat → Resp) (saveOk : List Char → Bool)
    (index : Nat) (url : List Char) (fails0 : Nat) : SingleOut :=
  let file_url := chars "https:" ++ url
  let r1 := dlRetry (env file_url) fails0
  if r1.got200 then
    let name := natStr index ++ '.' :: extOf file_url
    if saveOk name then ⟨[file_url], true, some name⟩
    else ⟨[file_url], false, none⟩
  else
    let alt := altUrlOf file_url
    let r2 := dlRetry (env alt.1) r1.fails
    if r2.got200 then
      let name := natStr index ++ '.' :: alt.2
      if saveOk name then ⟨[file_url, alt.1], true, some name⟩
      else ⟨[file_url, alt.1], false, none⟩
    else ⟨[file_url, alt.1], false, none⟩

/- ==========  image_grabber.py : archive ordering  ========== -/

/-- `filename.partition(".")[0]`: the stem before the first dot (the
whole name when there is no dot), as used by `_safe_sort_key`
(line 656). -/
def stemOf (f : List Char) : List Char := f.takeWhile (fun c => c != '.')

/-- Value of a nonempty digit string. -/
def digitsVal (s : List Char) : Nat :=
  s.foldl (fun acc c => acc * 10 + (c.toNat - '0'.toNat)) 0

/-- Python `int(name)` on a filename stem: an optional sign followed by
a nonempty digit string parses; anything else raises `ValueError`
(modelled as `none`).  (Python also strips surrounding whitespace and
allows inner underscores; the index-derived stems here contain
neither.) -/
def pyInt (s : List Char) : Option Int :=
  match s with
  | [] => none
  | c :: rest =>
    if c = '-' then
      if !rest.isEmpty && rest.all Char.isDigit then some (-(digitsVal rest : Int))
      else none
    else if c = '+' then
      if !rest.isEmpty && rest.all Char.isDigit then some ((digitsVal rest : Int))
      else none
    else if (c :: rest).all Char.isDigit then some ((digitsVal (c :: rest) : Int))
    else none

/-- `_safe_sort_key` (lines 653-660): integer-parse the stem; a failed
parse sorts last (`float("inf")`, modelled as `none`). -/
def safe_sort_key (filename : List Char) : Option Int := pyInt (stemOf filename)

/-- The order `float("inf")` induces on sort keys: numbers by value,
`inf` (`none`) after every number. -/
def keyLE : Option Int → Option Int → Bool
  | some a, some b => a ≤ b
  | some _, none => true
  | none, some _ => false
  | none, none => true

/-- Comparison of filenames by `_safe_sort_key`. -/
def fileLE (a b : List Char) : Bool := keyLE (safe_sort_key a) (safe_sort_key b)

/-- Stable insertion into a sorted list (a new element goes before the
first strictly-greater key, hence after equal keys it followed in the
input — the same extensional behaviour as Python's stable
`list.sort(key=_safe_sort_key)`). -/
def insertK (x : List Char) : List (List Char) → List (List Char)
  | [] => [x]
  | y :: ys => if fileLE x y then x :: y :: ys else y :: insertK x ys

/-- `img_list.sort(key=_safe_sort_key)` (line 662), as a stable
insertion sort. -/
def sortK : List (List Char) → List (List Char)
  | [] => []
  | x :: xs => insertK x (sortK xs)

/-- `os.path.join` on two components. -/
def pathJoin (a b : List Char) : List Char := a ++ '/' :: b

/-- `_create_zip` (lines 669-677): the archive path
`os.path.join(new_folder, f"{title}.cbz")` and the entries written, in
list order, each under its plain filename as `arcname`. -/
def create_zip (folder title : List Char) (img_list : List (List Char)) :
    List Char × List (List Char) :=
  (pathJoin folder (title ++ chars ".cbz"), img_list)

/- ==========  image_grabber.py : download pipeline  ========== -/

/-- The uncaught exception class relevant to `_download_list`. -/
inductive RunErr where
  | typeError
  deriving DecidableEq

/-- A Python value that is either a float or a list of floats — the two
types the variable `last_request_time` takes in `_download_list`. -/
inductive PyVal where
  | float (x : ℚ)
  | listF (xs : List ℚ)
  deriving DecidableEq

/-- Python subscription `v[0]`: on a float it raises
`TypeError: 'float' object is not subscriptable`. -/
def pySubscript : PyVal → Nat → Except RunErr ℚ
  | PyVal.float _, _ => Except.error RunErr.typeError
  | PyVal.listF xs, i => Except.ok (xs.getD i 0)

/-- Lines 561 and 566 of `_download_list`: `last_request_time` is bound
to `[0.0]` and immediately rebound to the float `0.0`, so the closure
sees a float. -/
def lastRequestTime0 : PyVal := PyVal.float 0

/-- The rate-limiter gate of `download_with_semaphore` (lines 572-594):
the first block uses `last_request_time` as a float and rebinds it to
`loop.time()` (line 582, still a float); the second, duplicated block
then evaluates `last_request_time[0]` (line 588) — subscripting a
float. -/
def rateGate (lrt : PyVal) (now : ℚ) : Except RunErr PyVal :=
  match lrt with
  | _ =>
    let lrt1 : PyVal := PyVal.float now
    match pySubscript lrt1 0 with
    | Except.error e => Except.error e
    | Except.ok _ => Except.ok (PyVal.listF [now])

/-- `_download_list` (lines 511-667): an empty materialized URL list
returns before any download or archive step (`.ok none`); otherwise the
first worker runs the rate-limiter gate, and — were the gate to
succeed — the results would be collected, the successes sorted with
`_safe_sort_key` and archived by `_create_zip`. -/
def download_list (env : List Char → Nat → Resp) (saveOk : List Char → Bool)
    (folder title : List Char) (urls : List (List Char)) :
    Except RunErr (Option (List Char × List (List Char))) :=
  if urls.isEmpty then Except.ok none
  else
    match rateGate lastRequestTime0 0 with
    | Except.error e => Except.error e
    | Except.ok _ =>
      let outs := (List.range urls.length).map fun i =>
        downloadSingle env saveOk i (urls.getD i []) 0
      let imgs := outs.filterMap fun o => o.imgName
      Except.ok (some (create_zip folder title (sortK imgs)))

/- ====================  scan lemmas  ==================== -/

/-- A successful `firstMatch` returns a nonempty key of the list that is a
prefix of the text. -/
theorem firstMatch_spec {keys : List (List Char)} {s k : List Char}
    (h : firstMatch keys s = some k) :
    k ≠ [] ∧ k.isPrefixOf s = true ∧ k ∈ keys := by
  induction keys with
  | nil => simp [firstMatch] at h
  | cons k0 ks ih =>
    rw [firstMatch] at h
    by_cases hc : (!k0.isEmpty && k0.isPrefixOf s) = true
    · rw [if_pos hc] at h
      injection h with h
      subst h
      simp only [Bool.and_eq_true, Bool.not_eq_true'] at hc
      refine ⟨fun hnil => ?_, hc.2, by simp⟩
      rw [hnil] at hc
      simp at hc
    · rw [if_neg hc] at h
      rcases ih h with ⟨h1, h2, h3⟩
      exact ⟨h1, h2, by simp [h3]⟩

/-- If no key is a prefix of the text, `firstMatch` fails. -/
theorem firstMatch_none {keys : List (List Char)} {s : List Char}
    (h : ∀ k ∈ keys, k.isPrefixOf s = false) :
    firstMatch keys s = none := by
  induction keys with
  | nil => simp [firstMatch]
  | cons k0 ks ih =>
    rw [firstMatch]
    have h0 : k0.isPrefixOf s = false := h k0 (by simp)
    rw [if_neg (by simp [h0])]
    exact ih fun k hk => h k (by simp [hk])

/-- The scanner result does not depend on the fuel, as long as the fuel
covers the text length. -/
theorem subScanGo_fuel (keys : List (List Char)) (v : List Char → Nat) :
    ∀ (f1 : Nat) (s : List Char), s.length ≤ f1 →
      ∀ f2, s.length ≤ f2 → subScanGo keys v f1 s = subScanGo keys v f2 s := by
  intro f1
  induction f1 with
  | zero =>
    intro s hs f2 _
    cases s with
    | nil => cases f2 <;> rfl
    | cons c cs => simp at hs
  | succ f ih =>
    intro s hs f2 h2
    cases s with
    | nil => cases f2 <;> rfl
    | cons c cs =>
      cases f2 with
      | zero => simp at h2
      | succ f2b =>
        rw [subScanGo, subScanGo]
        cases hm : firstMatch keys (c :: cs) with
        | some k =>
          have hk := firstMatch_spec hm
          have hk1 : 0 < k.length := by
            cases k with
            | nil => exact absurd rfl hk.1
            | cons _ _ => simp
          dsimp only
          congr 1
          apply ih
          · simp only [List.length_drop, List.length_cons]
            simp only [List.length_cons] at hs
            omega
          · simp only [List.length_drop, List.length_cons]
            simp only [List.length_cons] at h2
            omega
        | none =>
          dsimp only
          congr 1
          apply ih
          · simp only [List.length_cons] at hs; omega
          · simp only [List.length_cons] at h2; omega

/-- Unfolding: scanning the empty text yields nothing. -/
theorem subScan_nil (keys : List (List Char)) (v : List Char → Nat) :
    subScan keys v [] = [] := rfl

/-- Unfolding: a match at the head substitutes the placeholder of the
matched key and resumes after it. -/
theorem subScan_some {keys : List (List Char)} {v : List Char → Nat}
    {c : Char} {cs k : List Char} (h : firstMatch keys (c :: cs) = some k) :
    subScan keys v (c :: cs) =
      Tok.var (v k) :: subScan keys v (List.drop k.length (c :: cs)) := by
  have hk := firstMatch_spec h
  have hk1 : 0 < k.length := by
    cases k with
    | nil => exact absurd rfl hk.1
    | cons _ _ => simp
  rw [subScan, subScan, List.length_cons, subScanGo, h]
  dsimp only
  congr 1
  apply subScanGo_fuel
  · simp only [List.length_drop, List.length_cons]; omega
  · exact le_refl _

/-- Unfolding: with no match at the head, the character is kept. -/
theorem subScan_none {keys : List (List Char)} {v : List Char → Nat}
    {c : Char} {cs : List Char} (h : firstMatch keys (c :: cs) = none) :
    subScan keys v (c :: cs) = Tok.ch c :: subScan keys v cs := by
  rw [subScan, subScan, List.length_cons, subScanGo, h]

/-- Scanning past a literal region in which no key matches keeps it
character by character. -/
theorem subScan_lit (keys : List (List Char)) (v : List Char → Nat) :
    ∀ (p rest : List Char),
      (∀ i < p.length, ∀ k ∈ keys, k.isPrefixOf ((p ++ rest).drop i) = false) →
      subScan keys v (p ++ rest) = p.map Tok.ch ++ subScan keys v rest := by
  intro p
  induction p with
  | nil => intro rest _; simp
  | cons c p ih =>
    intro rest h
    have h0 : firstMatch keys (c :: (p ++ rest)) = none := by
      refine firstMatch_none fun k hk => ?_
      have := h 0 (by simp) k hk
      simpa using this
    rw [List.cons_append, subScan_none h0, ih rest ?_]
    · simp
    · intro i hi k hk
      have := h (i + 1) (by simpa using Nat.succ_lt_succ hi) k hk
      simpa using this

/-- Scanning a text that starts with the firstly-matching key `r`
substitutes `r`'s placeholder and resumes after it. -/
theorem subScan_run (keys : List (List Char)) (v : List Char → Nat)
    (r rest : List Char) (h : firstMatch keys (r ++ rest) = some r) :
    subScan keys v (r ++ rest) = Tok.var (v r) :: subScan keys v rest := by
  rcases firstMatch_spec h with ⟨h1, _, _⟩
  cases r with
  | nil => exact absurd rfl h1
  | cons a r2 =>
    rw [List.cons_append] at h ⊢
    rw [subScan_some h, ← List.cons_append, List.drop_left]

/-- Reading `cleanB` at a part/run pair. -/
theorem cleanB_cons {keys : List (List Char)} {p r : List Char}
    {ps rs : List (List Char)}
    (h : cleanB keys (p :: ps) (r :: rs) = true) :
    noKeyBelow keys (p ++ r ++ interleave ps rs) p.length = true
      ∧ firstMatch keys (r ++ interleave ps rs) = some r
      ∧ cleanB keys ps rs = true := by
  rw [cleanB] at h
  simp only [Bool.and_eq_true, decide_eq_true_eq] at h
  exact ⟨h.1.1, h.1.2, h.2⟩

/-- Reading `noKeyBelow`. -/
theorem noKeyBelow_spec {keys : List (List Char)} {s : List Char} {n : Nat}
    (h : noKeyBelow keys s n = true) :
    ∀ i < n, ∀ k ∈ keys, k.isPrefixOf (s.drop i) = false := by
  intro i hi k hk
  rw [noKeyBelow] at h
  simp only [List.all_eq_true, List.mem_range] at h
  simpa using h i hi k hk

/-- `cleanB` forces the decomposition shape: one more part than runs. -/
theorem cleanB_shape (keys : List (List Char)) :
    ∀ (parts runs : List (List Char)), cleanB keys parts runs = true →
      parts.length = runs.length + 1 := by
  intro parts
  induction parts with
  | nil => intro runs h; rw [cleanB] at h; exact absurd h (by simp)
  | cons p ps ih =>
    intro runs h
    cases runs with
    | nil =>
      cases ps with
      | nil => simp
      | cons p2 ps2 => rw [cleanB] at h; exact absurd h (by simp)
    | cons r rs =>
      have := ih rs (cleanB_cons h).2.2
      simp [this]

/-- On a clean decomposition, the substitution replaces exactly the runs,
each by the placeholder its string is mapped to. -/
theorem subScan_clean (keys : List (List Char)) (v : List Char → Nat) :
    ∀ (parts runs : List (List Char)), cleanB keys parts runs = true →
      subScan keys v (interleave parts runs) = tmplToks parts runs v := by
  intro parts
  induction parts with
  | nil => intro runs h; rw [cleanB] at h; exact absurd h (by simp)
  | cons p ps ih =>
    intro runs h
    cases runs with
    | nil =>
      cases ps with
      | nil =>
        rw [cleanB] at h
        have hil : interleave [p] ([] : List (List Char)) = p ++ [] := by
          rw [interleave, List.append_nil]
        rw [hil]
        rw [subScan_lit keys v p [] ?_]
        · rw [tmplToks, subScan_nil, List.append_nil]
        · intro i hi k hk
          have := noKeyBelow_spec h i hi k hk
          simpa using this
      | cons p2 ps2 => rw [cleanB] at h; exact absurd h (by simp)
    | cons r rs =>
      rcases cleanB_cons h with ⟨h1, h2, h3⟩
      have hil : interleave (p :: ps) (r :: rs) = p ++ (r ++ interleave ps rs) := by
        rw [interleave, List.append_assoc]
      rw [hil]
      rw [subScan_lit keys v p (r ++ interleave ps rs) ?_]
      · rw [subScan_run keys v r (interleave ps rs) h2, ih rs h3, tmplToks]
        simp
      · intro i hi k hk
        have := noKeyBelow_spec h1 i hi k hk
        rw [List.append_assoc] at this
        exact this

/- ====================  template characterization  ==================== -/

/-- On a duplicate-free list `dedupFirst` is the identity. -/
theorem dedupFirst_eq_self : ∀ {l : List (List Char)}, l.Nodup → dedupFirst l = l := by
  intro l
  induction l with
  | nil => intro _; rw [dedupFirst]
  | cons r rs ih =>
    intro h
    have hf : rs.filter (fun x => x != r) = rs := by
      apply List.filter_eq_self.mpr
      intro a ha
      simp only [bne_iff_ne, ne_eq]
      exact fun he => (List.nodup_cons.mp h).1 (he ▸ ha)
    rw [dedupFirst, ih (List.nodup_cons.mp h).2, hf]

/-- In a duplicate-free run list, the dict value of a run is its own
position. -/
theorem lastIdx_eq : ∀ (pre suf : List (List Char)) (k : List Char),
    (pre ++ k :: suf).Nodup → lastIdx (pre ++ k :: suf) k = pre.length := by
  intro pre
  induction pre with
  | nil =>
    intro suf k hnd
    rw [List.nil_append, lastIdx,
      if_neg (List.nodup_cons.mp hnd).1]
    rfl
  | cons p pre2 ih =>
    intro suf k hnd
    rw [List.cons_append, lastIdx,
      if_pos (by simp), ih suf k (List.nodup_cons.mp hnd).2]
    rfl

/-- With duplicate-free runs, the produced template carries the
placeholders in positional order. -/
theorem tmplToks_eq_specToks (runs : List (List Char)) (hnd : runs.Nodup) :
    ∀ (rs ps pre : List (List Char)),
      runs = pre ++ rs →
      tmplToks ps rs (lastIdx runs) = specToks ps rs pre.length := by
  intro rs
  induction rs with
  | nil =>
    intro ps pre _
    cases ps with
    | nil => rw [tmplToks, specToks]
    | cons p ps2 => rw [tmplToks, specToks]
  | cons r rs2 ih =>
    intro ps pre h
    cases ps with
    | nil => rw [tmplToks, specToks]
    | cons p ps2 =>
      rw [tmplToks, specToks]
      have hv : lastIdx runs r = pre.length := by
        subst h
        exact lastIdx_eq pre rs2 r hnd
      have hstep : runs = (pre ++ [r]) ++ rs2 := by
        rw [h, List.append_assoc]
        rfl
      rw [hv, ih ps2 (pre ++ [r]) hstep]
      simp

/-- `render` distributes over append. -/
theorem render_append (a b : List Tok) (f : Nat → List Char) :
    render (a ++ b) f = render a f ++ render b f := by
  induction a with
  | nil => simp [render]
  | cons t ts ih => cases t <;> simp [render, ih]

/-- Rendering a literal region gives it back. -/
theorem render_map_ch (p : List Char) (f : Nat → List Char) :
    render (p.map Tok.ch) f = p := by
  induction p with
  | nil => simp [render]
  | cons c cs ih => simp [render, ih]

/-- Rendering the positional template substitutes the assignment values
between the literal parts. -/
theorem render_specToks (f : Nat → List Char) :
    ∀ (ps rs : List (List Char)) (k : Nat),
      render (specToks ps rs k) f = interleave ps ((List.range' k rs.length).map f) := by
  intro ps
  induction ps with
  | nil =>
    intro rs k
    rw [specToks, interleave]
    rw [render]
  | cons p ps2 ih =>
    intro rs k
    cases rs with
    | nil =>
      rw [specToks, render_map_ch]
      simp [interleave]
    | cons r rs2 =>
      rw [specToks, render_append, render_append, render_map_ch]
      rw [show render [Tok.var k] f = f k ++ [] from rfl, List.append_nil]
      rw [ih rs2 (k + 1)]
      rw [List.length_cons, List.range'_succ, List.map_cons, interleave]

/-- The widths recorded in `n_digits` looked up by placeholder index give
the per-run widths. -/
theorem range_map_zfill (runs : List (List Char)) (X : List Char) :
    (List.range runs.length).map
        (fun k => zfill ((runs.map List.length).getD k 0) X)
      = runs.map fun r => zfill r.length X := by
  apply List.ext_get
  · simp
  · intro n h1 h2
    simp only [List.get_map, List.get_range]
    congr 1
    have hn : n < (runs.map List.length).length := by simpa using h2
    rw [List.getD_eq_get _ _ hn, List.get_map]

/-- Master theorem: on a clean decomposition into literal parts and
duplicate-free digit runs, `_generate_template` produces exactly the
positional template, the widths and the placeholder count. -/
theorem generate_template_clean (parts runs : List (List Char))
    (hne : runs ≠ []) (hnd : runs.Nodup)
    (hruns : digitRuns (lastSeg (interleave parts runs)) = runs)
    (hcl : cleanB runs parts runs = true) :
    generate_template (interleave parts runs) =
      Except.ok ⟨specToks parts runs 0, runs.map List.length, runs.length⟩ := by
  rw [generate_template]
  simp only [hruns]
  rw [if_neg hne]
  have hsub : subScan (dedupFirst (digitRuns (lastSeg (interleave parts runs))))
      (lastIdx (digitRuns (lastSeg (interleave parts runs)))) (interleave parts runs)
      = specToks parts runs 0 := by
    rw [hruns, dedupFirst_eq_self hnd, subScan_clean runs (lastIdx runs) parts runs hcl]
    exact tmplToks_eq_specToks runs hnd runs parts [] rfl
  rw [hruns] at hsub
  rw [hsub]

/-- Rendering the clean template under any assignment interleaves the
parts with the per-run values. -/
theorem render_clean (parts runs : List (List Char)) (f : Nat → List Char)
    (g : List Char → List Char)
    (hg : (List.range runs.length).map f = runs.map g) :
    render (specToks parts runs 0) f = interleave parts (runs.map g) := by
  rw [render_specToks f parts runs 0, ← List.range_eq_range', hg]

/-- Splitting off the final literal part. -/
theorem interleave_snoc (q : List Char) :
    ∀ (ps vs : List (List Char)), ps.length = vs.length →
      interleave (ps ++ [q]) vs = weave ps vs ++ q := by
  intro ps
  induction ps with
  | nil =>
    intro vs h
    cases vs with
    | nil => rw [List.nil_append, interleave, weave, List.nil_append]
    | cons v vs2 => simp at h
  | cons p ps2 ih =>
    intro vs h
    cases vs with
    | nil => simp at h
    | cons v vs2 =>
      rw [List.cons_append, interleave, weave, ih vs2 (by simpa using h)]
      simp [List.append_assoc]

/-- Appending to the last woven value appends at the very end. -/
theorem weave_last (extra : List Char) :
    ∀ (ps A : List (List Char)) (b : List Char), ps.length = A.length + 1 →
      weave ps (A ++ [b ++ extra]) = weave ps (A ++ [b]) ++ extra := by
  intro ps
  induction ps with
  | nil => intro A b h; simp at h
  | cons p ps2 ih =>
    intro A b h
    cases A with
    | nil =>
      cases ps2 with
      | nil =>
        rw [List.nil_append, List.nil_append, weave, weave, weave]
        simp [List.append_assoc]
      | cons _ _ => simp at h
    | cons a A2 =>
      rw [List.cons_append, List.cons_append, weave, weave,
        ih A2 b (by simpa using h)]
      simp [List.append_assoc]

/-- `varIdxs` distributes over append. -/
theorem varIdxs_append (a b : List Tok) : varIdxs (a ++ b) = varIdxs a ++ varIdxs b := by
  rw [varIdxs, varIdxs, varIdxs, List.filterMap_append]

/-- A literal region contributes no placeholder indices. -/
theorem varIdxs_map_ch (p : List Char) : varIdxs (p.map Tok.ch) = [] := by
  induction p with
  | nil => rfl
  | cons c cs ih => simpa [varIdxs] using ih

/-- The placeholder indices of the positional template, in order. -/
theorem varIdxs_specToks :
    ∀ (ps rs : List (List Char)) (k : Nat), ps.length = rs.length + 1 →
      varIdxs (specToks ps rs k) = List.range' k rs.length := by
  intro ps
  induction ps with
  | nil => intro rs k h; simp at h
  | cons p ps2 ih =>
    intro rs k h
    cases rs with
    | nil =>
      cases ps2 with
      | nil =>
        rw [specToks]
        simp [varIdxs]
      | cons _ _ => simp at h
    | cons r rs2 =>
      rw [specToks, varIdxs_append, varIdxs_append, varIdxs_map_ch,
        ih rs2 (k + 1) (by simpa using h), List.length_cons, List.range'_succ]
      simp [varIdxs]

/-- `normal_url_list` on a clean template: one URL per index, each run
replaced by the zero-filled index. -/
theorem normal_clean (parts runs : List (List Char)) (N : Nat) :
    normal_url_list ⟨specToks parts runs 0, runs.map List.length, runs.length⟩ N
      = (List.range (N + 1)).map fun i =>
          interleave parts (runs.map fun r => zfill r.length (natStr i)) := by
  rw [normal_url_list]
  apply List.map_congr_left
  intro i _
  dsimp only
  rw [render_specToks, ← List.range_eq_range', range_map_zfill]

/-- `special_url_list` on a clean template whose parts are `ps ++ [q]`:
each of the 21 URLs is the woven zero-index body, then the separator,
then the symbol, then the final literal part. -/
theorem special_clean (ps : List (List Char)) (q : List Char)
    (runs : List (List Char)) (sep : List Char)
    (hne : runs ≠ []) (hlen : ps.length = runs.length) :
    special_url_list ⟨specToks (ps ++ [q]) runs 0, runs.map List.length, runs.length⟩ sep
      = sp_c_list.map fun c => weave ps (zfills runs) ++ sep ++ [c] ++ q := by
  rw [special_url_list]
  apply List.map_congr_left
  intro c _
  have hm : 0 < runs.length := List.length_pos.mpr hne
  dsimp only
  rw [render_specToks, ← List.range_eq_range']
  have hsplit : List.range runs.length
      = List.range (runs.length - 1) ++ [runs.length - 1] := by
    conv_lhs => rw [show runs.length = (runs.length - 1) + 1 by omega]
    rw [List.range_succ]
  have hfront : (List.range (runs.length - 1)).map (fun k =>
        if !sep.isEmpty then
          if k < runs.length - 1 then zfill ((runs.map List.length).getD k 0) ['0']
          else zfill ((runs.map List.length).getD k 0) ['0'] ++ sep ++ [c]
        else
          if k < runs.length - 1 then zfill ((runs.map List.length).getD k 0) ['0']
          else zfill ((runs.map List.length).getD k 0) ['0'] ++ [c])
      = (List.range (runs.length - 1)).map
          (fun k => zfill ((runs.map List.length).getD k 0) ['0']) := by
    apply List.map_congr_left
    intro k hk
    have hklt : k < runs.length - 1 := List.mem_range.mp hk
    by_cases hs : sep.isEmpty <;> simp [hs, hklt]
  have hlast : (if !sep.isEmpty then
        if runs.length - 1 < runs.length - 1 then
          zfill ((runs.map List.length).getD (runs.length - 1) 0) ['0']
        else zfill ((runs.map List.length).getD (runs.length - 1) 0) ['0'] ++ sep ++ [c]
      else
        if runs.length - 1 < runs.length - 1 then
          zfill ((runs.map List.length).getD (runs.length - 1) 0) ['0']
        else zfill ((runs.map List.length).getD (runs.length - 1) 0) ['0'] ++ [c])
      = zfill ((runs.map List.length).getD (runs.length - 1) 0) ['0'] ++ (sep ++ [c]) := by
    by_cases hs : sep.isEmpty
    · have hsep : sep = [] := by simpa using hs
      simp [hs, hsep]
    · simp [hs, List.append_assoc]
  rw [hsplit, List.map_append, List.map_cons, List.map_nil, hfront, hlast]
  have hzf : (List.range (runs.length - 1)).map
        (fun k => zfill ((runs.map List.length).getD k 0) ['0'])
      ++ [zfill ((runs.map List.length).getD (runs.length - 1) 0) ['0']]
      = zfills runs := by
    rw [zfills, ← range_map_zfill runs ['0'], hsplit, List.map_append,
      List.map_cons, List.map_nil]
  rw [interleave_snoc q ps _ ?hl1]
  case hl1 =>
    rw [List.length_append, List.length_map, List.length_range]
    simp
    omega
  rw [weave_last (sep ++ [c]) ps _ _ ?hl2]
  case hl2 =>
    rw [List.length_map, List.length_range]
    omega
  rw [hzf]
  simp [List.append_assoc]

/- ====================  claims C1, C3, C4, C5, C6  ==================== -/

/-- C1 (amended): for a sample URL whose final path segment has exactly
one maximal digit run `r` of width `w`, and whose run string matches
nowhere else in the URL (`cleanB`), `normal_url_list` yields exactly
`N + 1` URLs — not `N + 2` — one per index `i` in `0..N` inclusive, the
`i`-th being the sample with the run replaced by `str(i).zfill(w)`. -/
theorem C1_normal_enumeration (P r S : List Char) (N : Nat)
    (hruns : digitRuns (lastSeg (P ++ r ++ S)) = [r])
    (hcl : cleanB [r] [P, S] [r] = true) :
    ∃ t, generate_template (P ++ r ++ S) = Except.ok t
      ∧ (normal_url_list t N).length = N + 1
      ∧ normal_url_list t N
          = (List.range (N + 1)).map fun i => P ++ zfill r.length (natStr i) ++ S := by
  have hil : interleave [P, S] [r] = P ++ r ++ S := rfl
  have hmaster := generate_template_clean [P, S] [r] (by simp) (by simp)
    (by rw [hil]; exact hruns) hcl
  rw [hil] at hmaster
  refine ⟨_, hmaster, ?_, ?_⟩
  · rw [normal_url_list]
    simp
  · rw [normal_clean [P, S] [r] N]
    apply List.map_congr_left
    intro i _
    rfl

/-- C1 witness: the theorem applied to the sample `a/5.x` with `N = 1`. -/
theorem C1_witness :
    (digitRuns (lastSeg (chars "a/" ++ chars "5" ++ chars ".x")) = [chars "5"]
        ∧ cleanB [chars "5"] [chars "a/", chars ".x"] [chars "5"] = true)
      ∧ ∃ t, generate_template (chars "a/" ++ chars "5" ++ chars ".x") = Except.ok t
          ∧ (normal_url_list t 1).length = 1 + 1
          ∧ normal_url_list t 1 = (List.range (1 + 1)).map
              fun i => chars "a/" ++ zfill (chars "5").length (natStr i) ++ chars ".x" :=
  ⟨⟨by decide, by decide⟩,
    C1_normal_enumeration (chars "a/") (chars "5") (chars ".x") 1 (by decide) (by decide)⟩

/-- C1 counterexample: for the sample `a/5` (one run of width 1) and
`N = 0`, the code yields 1 URL, not `N + 2 = 2`. -/
theorem C1_counterexample :
    ¬ (generate_template (chars "a/5")).map (fun t => (normal_url_list t 0).length)
        = Except.ok (0 + 2) := by decide

/-- C3 (amended): on a URL that decomposes cleanly (runs pairwise
distinct, each run string matching only at its own position),
`special_url_list` with empty separator yields exactly 21 URLs in the
fixed symbol order `a..g`, `A..G`, `0..6`, each equal to the zero-index
normal URL with the symbol inserted right after the last placeholder's
zero-padded zero.  On URLs where the alternation also matches inside
another run the symbol can be dropped entirely (see the
counterexample). -/
theorem C3_special_no_separator (ps : List (List Char)) (q : List Char)
    (runs : List (List Char))
    (hne : runs ≠ []) (hnd : runs.Nodup)
    (hruns : digitRuns (lastSeg (interleave (ps ++ [q]) runs)) = runs)
    (hcl : cleanB runs (ps ++ [q]) runs = true) :
    ∃ t, generate_template (interleave (ps ++ [q]) runs) = Except.ok t
      ∧ (special_url_list t []).length = 21
      ∧ sp_c_list = chars "abcdefgABCDEFG0123456"
      ∧ special_url_list t []
          = sp_c_list.map (fun c => weave ps (zfills runs) ++ [c] ++ q)
      ∧ normal_url_list t 0 = [weave ps (zfills runs) ++ q] := by
  have hlen : ps.length = runs.length := by
    have := cleanB_shape runs (ps ++ [q]) runs hcl
    simpa using this
  refine ⟨_, generate_template_clean (ps ++ [q]) runs hne hnd hruns hcl,
    ?_, by decide, ?_, ?_⟩
  · rw [special_url_list, List.length_map]
    decide
  · rw [special_clean ps q runs [] hne hlen]
    apply List.map_congr_left
    intro c _
    simp
  · rw [normal_clean (ps ++ [q]) runs 0]
    rw [show List.range 1 = [0] from rfl, List.map_cons, List.map_nil]
    have h0 : (runs.map fun r => zfill r.length (natStr 0)) = zfills runs := by
      rw [zfills]
      apply List.map_congr_left
      intro r _
      rw [show natStr 0 = ['0'] from rfl]
    rw [h0, interleave_snoc q ps (zfills runs)
      (by rw [zfills, List.length_map]; exact hlen)]

/-- C3 witness: the theorem applied to the sample `a/12.x`. -/
theorem C3_witness :
    (digitRuns (lastSeg (interleave [chars "a/", chars ".x"] [chars "12"])) = [chars "12"]
        ∧ cleanB [chars "12"] [chars "a/", chars ".x"] [chars "12"] = true)
      ∧ ∃ t, generate_template (interleave [chars "a/", chars ".x"] [chars "12"])
            = Except.ok t
          ∧ (special_url_list t []).length = 21
          ∧ sp_c_list = chars "abcdefgABCDEFG0123456"
          ∧ special_url_list t []
              = sp_c_list.map (fun c => weave [chars "a/"] (zfills [chars "12"]) ++ [c] ++ chars ".x")
          ∧ normal_url_list t 0 = [weave [chars "a/"] (zfills [chars "12"]) ++ chars ".x"] :=
  ⟨⟨by decide, by decide⟩,
    C3_special_no_separator [chars "a/"] (chars ".x") [chars "12"]
      (by decide) (by decide) (by decide) (by decide)⟩

/-- C3 counterexample: for sample `a1b12` (runs `1` and `12`), every
special URL equals the zero-index normal URL `a0b02` — the symbol is
never appended, because the alternation `1|12` also consumes the prefix
of `12`, so the highest-index placeholder never occurs in the template. -/
theorem C3_counterexample :
    (generate_template (chars "a1b12")).map (fun t => (special_url_list t []).get? 0)
        = Except.ok (some (chars "a0b02"))
      ∧ (generate_template (chars "a1b12")).map (fun t => (normal_url_list t 0).get? 0)
        = Except.ok (some (chars "a0b02"))
      ∧ ¬ ∃ A B : List Char,
          chars "a0b02" = A ++ B ∧ chars "a0b02" = A ++ 'a' :: B := by
  refine ⟨by decide, by decide, ?_⟩
  rintro ⟨A, B, h1, h2⟩
  have hlen5 : (chars "a0b02").length = 5 := rfl
  have l1 := congrArg List.length h1
  have l2 := congrArg List.length h2
  rw [hlen5, List.length_append] at l1
  rw [hlen5, List.length_append, List.length_cons] at l2
  omega

/-- C4 (amended): with zero digit runs in the final path segment,
building the template does fail, but with Python's `KeyError` (empty
alternation pattern, failed dict lookup in the substitution callback) —
the code defines no `TemplateError`. -/
theorem C4_no_digit_run_fails (url : List Char)
    (h : digitRuns (lastSeg url) = []) :
    generate_template url = Except.error PyErr.keyError := by
  rw [generate_template]
  simp [h]

/-- C4 witness: the theorem applied to the digit-free sample `a/bc`. -/
theorem C4_witness :
    digitRuns (lastSeg (chars "a/bc")) = []
      ∧ generate_template (chars "a/bc") = Except.error PyErr.keyError :=
  ⟨by decide, C4_no_digit_run_fails (chars "a/bc") (by decide)⟩

/-- C4 counterexample: the failure on `a/bc` is a `KeyError`, which is
not the `TemplateError` the claim names. -/
theorem C4_counterexample :
    generate_template (chars "a/bc") = Except.error PyErr.keyError
      ∧ PyErr.keyError ≠ PyErr.templateError :=
  ⟨by decide, by decide⟩

/-- C5 (amended): on a clean decomposition (each recorded run string
matches only at its own run position in the whole URL — not merely in
the final segment — and runs are pairwise distinct), the template
replaces exactly the runs, placeholder `k` (in order of appearance) is
`var k` carrying the width of run `k`, and the placeholder count equals
`len(n_digits)`.  The substitution operates on the whole URL, so digit
runs repeated in earlier path segments are replaced too (see the
counterexample). -/
theorem C5_template_invariant (parts runs : List (List Char))
    (hne : runs ≠ []) (hnd : runs.Nodup)
    (hruns : digitRuns (lastSeg (interleave parts runs)) = runs)
    (hcl : cleanB runs parts runs = true) :
    ∃ t, generate_template (interleave parts runs) = Except.ok t
      ∧ t.toks = specToks parts runs 0
      ∧ varIdxs t.toks = List.range t.n_digits.length
      ∧ t.n_digits = runs.map List.length := by
  refine ⟨_, generate_template_clean parts runs hne hnd hruns hcl, rfl, ?_, rfl⟩
  dsimp only
  rw [varIdxs_specToks parts runs 0 (cleanB_shape runs parts runs hcl),
    List.length_map, List.range_eq_range']

/-- C5 witness: the theorem applied to the sample `a/12.x`. -/
theorem C5_witness :
    (([chars "12"] : List (List Char)) ≠ []
        ∧ digitRuns (lastSeg (interleave [chars "a/", chars ".x"] [chars "12"])) = [chars "12"]
        ∧ cleanB [chars "12"] [chars "a/", chars ".x"] [chars "12"] = true)
      ∧ ∃ t, generate_template (interleave [chars "a/", chars ".x"] [chars "12"])
            = Except.ok t
          ∧ t.toks = specToks [chars "a/", chars ".x"] [chars "12"] 0
          ∧ varIdxs t.toks = List.range t.n_digits.length
          ∧ t.n_digits = [chars "12"].map List.length :=
  ⟨⟨by decide, by decide, by decide⟩,
    C5_template_invariant [chars "a/", chars ".x"] [chars "12"]
      (by decide) (by decide) (by decide) (by decide)⟩

/-- C5 counterexample: for `a/123/123` the run `123` of the final
segment also occurs in the earlier path segment, both occurrences are
replaced, and the template ends up with two placeholders against a
one-element width list. -/
theorem C5_counterexample :
    (generate_template (chars "a/123/123")).map
        (fun t => ((varIdxs t.toks).length, t.n_digits.length))
      = Except.ok (2, 1)
      ∧ (2 : Nat) ≠ 1 :=
  ⟨by decide, by decide⟩

/-- C6 (amended): on a clean decomposition, `special_url_list` with
separator `-` or `_` yields exactly 21 URLs, and the `i`-th equals the
`i`-th no-separator URL with the separator inserted immediately before
the appended symbol (both sides are characterized below by the same
decomposition `A ++ sep ++ [c] ++ B` versus `A ++ [c] ++ B`). -/
theorem C6_special_separator (ps : List (List Char)) (q : List Char)
    (runs : List (List Char)) (sep : List Char)
    (hsep : sep = chars "-" ∨ sep = chars "_")
    (hne : runs ≠ []) (hnd : runs.Nodup)
    (hruns : digitRuns (lastSeg (interleave (ps ++ [q]) runs)) = runs)
    (hcl : cleanB runs (ps ++ [q]) runs = true) :
    ∃ t, generate_template (interleave (ps ++ [q]) runs) = Except.ok t
      ∧ (special_url_list t sep).length = 21
      ∧ special_url_list t sep
          = sp_c_list.map (fun c => weave ps (zfills runs) ++ sep ++ [c] ++ q)
      ∧ special_url_list t []
          = sp_c_list.map (fun c => weave ps (zfills runs) ++ [c] ++ q) := by
  have hlen : ps.length = runs.length := by
    have := cleanB_shape runs (ps ++ [q]) runs hcl
    simpa using this
  refine ⟨_, generate_template_clean (ps ++ [q]) runs hne hnd hruns hcl,
    ?_, special_clean ps q runs sep hne hlen, ?_⟩
  · rw [special_url_list, List.length_map]
    decide
  · rw [special_clean ps q runs [] hne hlen]
    apply List.map_congr_left
    intro c _
    simp

/-- C6 witness: the theorem applied to the sample `a/12.x` with
separator `-`. -/
theorem C6_witness :
    ((chars "-" = chars "-" ∨ chars "-" = chars "_")
        ∧ digitRuns (lastSeg (interleave [chars "a/", chars ".x"] [chars "12"])) = [chars "12"]
        ∧ cleanB [chars "12"] [chars "a/", chars ".x"] [chars "12"] = true)
      ∧ ∃ t, generate_template (interleave [chars "a/", chars ".x"] [chars "12"])
            = Except.ok t
          ∧ (special_url_list t (chars "-")).length = 21
          ∧ special_url_list t (chars "-")
              = sp_c_list.map (fun c =>
                  weave [chars "a/"] (zfills [chars "12"]) ++ chars "-" ++ [c] ++ chars ".x")
          ∧ special_url_list t []
              = sp_c_list.map (fun c =>
                  weave [chars "a/"] (zfills [chars "12"]) ++ [c] ++ chars ".x") :=
  ⟨⟨Or.inl rfl, by decide, by decide⟩,
    C6_special_separator [chars "a/"] (chars ".x") [chars "12"] (chars "-")
      (Or.inl rfl) (by decide) (by decide) (by decide) (by decide)⟩

/-- C6 counterexample: for sample `a1b12`, the separator variant equals
the no-separator variant (both `a0b02`, no symbol at all), so no
"insert the separator before the appended symbol" relation can hold. -/
theorem C6_counterexample :
    (generate_template (chars "a1b12")).map
        (fun t => (special_url_list t (chars "-")).get? 0)
      = Except.ok (some (chars "a0b02"))
      ∧ (generate_template (chars "a1b12")).map (fun t => (special_url_list t []).get? 0)
        = Except.ok (some (chars "a0b02"))
      ∧ ¬ ∃ A B : List Char,
          chars "a0b02" = A ++ 'a' :: B ∧ chars "a0b02" = A ++ '-' :: 'a' :: B := by
  refine ⟨by decide, by decide, ?_⟩
  rintro ⟨A, B, h1, h2⟩
  have hlen5 : (chars "a0b02").length = 5 := rfl
  have l1 := congrArg List.length h1
  have l2 := congrArg List.length h2
  rw [hlen5, List.length_append, List.length_cons] at l1
  rw [hlen5, List.length_append, List.length_cons, List.length_cons] at l2
  omega

/- ====================  claim C2  ==================== -/

/-- One rate-controller step keeps the delay within the bounds. -/
theorem rateStep_bounds {s : RateState} (h1 : min_delay ≤ s.delay)
    (h2 : s.delay ≤ max_delay) (o : Outcome) :
    min_delay ≤ (rateStep s o).delay ∧ (rateStep s o).delay ≤ max_delay := by
  simp only [min_delay, max_delay] at h1 h2
  cases o with
  | success =>
    rw [rateStep]
    split
    · dsimp only
      simp only [min_delay, max_delay]
      constructor
      · exact le_max_left _ _
      · apply max_le
        · norm_num
        · nlinarith
    · simp only [min_delay, max_delay]
      exact ⟨h1, h2⟩
  | blocked =>
    rw [rateStep]
    dsimp only
    simp only [min_delay, max_delay]
    constructor
    · apply le_min
      · norm_num
      · nlinarith
    · exact min_le_left _ _

/-- The delay stays within `[min_delay, max_delay]` along every finite
report sequence. -/
theorem rateRun_bounds (l : List Outcome) :
    min_delay ≤ (rateRun l).delay ∧ (rateRun l).delay ≤ max_delay := by
  rw [rateRun]
  have H : ∀ (l2 : List Outcome) (s : RateState),
      min_delay ≤ s.delay → s.delay ≤ max_delay →
      min_delay ≤ (l2.foldl rateStep s).delay
        ∧ (l2.foldl rateStep s).delay ≤ max_delay := by
    intro l2
    induction l2 with
    | nil => intro s h1 h2; exact ⟨h1, h2⟩
    | cons o l3 ih =>
      intro s h1 h2
      rw [List.foldl_cons]
      obtain ⟨hb1, hb2⟩ := rateStep_bounds h1 h2 o
      exact ih (rateStep s o) hb1 hb2
  refine H l initRate ?_ ?_
  · rw [initRate, min_delay]
    norm_num
  · rw [initRate, max_delay]
    norm_num

/-- C2: starting from the `__init__` state (delay 3.0, bounds
[2.0, 15.0]), for every finite sequence of success/blocked reports the
delay stays within the bounds; a blocked report strictly increases the
delay unless it is at the cap (where it stays); and the 5th consecutive
success (counter at 4, then one more success) strictly decreases the
delay unless it is at the floor (where it stays). -/
theorem C2_rate_controller (l : List Outcome) :
    (min_delay ≤ (rateRun l).delay ∧ (rateRun l).delay ≤ max_delay)
    ∧ ((rateRun l).delay < max_delay →
        (rateRun l).delay < (rateStep (rateRun l) Outcome.blocked).delay)
    ∧ ((rateRun l).delay = max_delay →
        (rateStep (rateRun l) Outcome.blocked).delay = max_delay)
    ∧ ((rateRun l).succ = 4 → min_delay < (rateRun l).delay →
        (rateStep (rateRun l) Outcome.success).delay < (rateRun l).delay)
    ∧ ((rateRun l).succ = 4 → (rateRun l).delay = min_delay →
        (rateStep (rateRun l) Outcome.success).delay = (rateRun l).delay) := by
  obtain ⟨hb1, hb2⟩ := rateRun_bounds l
  have hd0 : (0 : ℚ) < (rateRun l).delay := by
    rw [min_delay] at hb1
    linarith
  refine ⟨⟨hb1, hb2⟩, ?_, ?_, ?_, ?_⟩
  · intro hlt
    rw [rateStep]
    dsimp only
    apply lt_min hlt
    nlinarith
  · intro heq
    rw [rateStep]
    dsimp only
    rw [heq]
    apply min_eq_left
    rw [max_delay]
    norm_num
  · intro hs hgt
    rw [rateStep, if_pos ⟨by omega, hgt⟩]
    dsimp only
    apply max_lt hgt
    nlinarith
  · intro hs heq
    rw [rateStep, if_neg ?_]
    rintro ⟨_, hlt⟩
    rw [heq] at hlt
    exact lt_irrefl _ hlt

/-- C2 witness: after four successes the counter is 4 and the delay is
3, strictly between the bounds; the theorem then gives the strict
decrease on the 5th success and the strict increase on a blocked
report. -/
theorem C2_witness :
    ((rateRun [Outcome.success, Outcome.success, Outcome.success, Outcome.success]).succ = 4
      ∧ min_delay
          < (rateRun [Outcome.success, Outcome.success, Outcome.success, Outcome.success]).delay
      ∧ (rateRun [Outcome.success, Outcome.success, Outcome.success, Outcome.success]).delay
          < max_delay)
    ∧ (rateStep (rateRun [Outcome.success, Outcome.success, Outcome.success, Outcome.success])
          Outcome.success).delay
        < (rateRun [Outcome.success, Outcome.success, Outcome.success, Outcome.success]).delay
    ∧ (rateRun [Outcome.success, Outcome.success, Outcome.success, Outcome.success]).delay
        < (rateStep (rateRun [Outcome.success, Outcome.success, Outcome.success, Outcome.success])
            Outcome.blocked).delay :=
  ⟨⟨by decide, by decide, by decide⟩,
    (C2_rate_controller [Outcome.success, Outcome.success, Outcome.success,
        Outcome.success]).2.2.2.1 (by decide) (by decide),
    (C2_rate_controller [Outcome.success, Outcome.success, Outcome.success,
        Outcome.success]).2.1 (by decide)⟩

/- ====================  claim C7  ==================== -/

/-- C7: (1) within the three attempts of `_download_image_with_retry`,
a 404 at attempt `t` after `t` blocked attempts returns at once — the
call makes exactly `t + 1` GET attempts, never returns a response, and
sleeps only for the blocked attempts (`imgWait 0 .. imgWait (t-1)`),
never for the 404; (2) `_download_single_image` fetches either only the
original URL or the original URL followed by the extension-swapped
alternate — the fallback fetch happens at most once per candidate
URL. -/
theorem C7_notfound_and_fallback :
    (∀ (env : Nat → Resp) (f t : Nat), t < 3 →
        (∀ j, j < t → env j = Resp.blocked) → env t = Resp.notFound →
        (dlRetry env f).got200 = false
          ∧ (dlRetry env f).gets = t + 1
          ∧ (dlRetry env f).sleeps = (List.range t).map imgWait)
    ∧ (∀ (env : List Char → Nat → Resp) (saveOk : List Char → Bool)
        (idx : Nat) (url : List Char) (f : Nat),
        (downloadSingle env saveOk idx url f).fetched = [chars "https:" ++ url]
        ∨ (downloadSingle env saveOk idx url f).fetched
            = [chars "https:" ++ url, (altUrlOf (chars "https:" ++ url)).1]) := by
  constructor
  · intro env f t ht hblocked h404
    interval_cases t
    · simp [dlRetry, dlRetryFrom, h404]
    · have h0 := hblocked 0 (by omega)
      simp [dlRetry, dlRetryFrom, h0, h404, List.range_succ]
    · have h0 := hblocked 0 (by omega)
      have h1 := hblocked 1 (by omega)
      simp [dlRetry, dlRetryFrom, h0, h1, h404, List.range_succ]
  · intro env saveOk idx url f
    rw [downloadSingle]
    dsimp only
    split
    · split
      · left; rfl
      · left; rfl
    · split
      · split
        · right; rfl
        · right; rfl
      · right; rfl

/-- C7 witness: an immediate 404 gives one attempt and no sleep, and a
first-fetch success fetches only the original URL. -/
theorem C7_witness :
    ((0 : Nat) < 3 ∧ (fun _ => Resp.notFound) 0 = Resp.notFound)
    ∧ ((dlRetry (fun _ => Resp.notFound) 0).got200 = false
        ∧ (dlRetry (fun _ => Resp.notFound) 0).gets = 0 + 1
        ∧ (dlRetry (fun _ => Resp.notFound) 0).sleeps = (List.range 0).map imgWait)
    ∧ ((downloadSingle (fun _ _ => Resp.ok) (fun _ => true) 0 (chars "//i/1.jpg") 0).fetched
          = [chars "https:" ++ chars "//i/1.jpg"]
        ∨ (downloadSingle (fun _ _ => Resp.ok) (fun _ => true) 0 (chars "//i/1.jpg") 0).fetched
          = [chars "https:" ++ chars "//i/1.jpg",
              (altUrlOf (chars "https:" ++ chars "//i/1.jpg")).1]) :=
  ⟨⟨by decide, rfl⟩,
    C7_notfound_and_fallback.1 (fun _ => Resp.notFound) 0 0 (by decide)
      (fun j hj => absurd hj (by omega)) rfl,
    C7_notfound_and_fallback.2 (fun _ _ => Resp.ok) (fun _ => true) 0 (chars "//i/1.jpg") 0⟩

/- ====================  claim C9  ==================== -/

/-- `pyReplace` is the single-key scan rendered with the replacement
string (same fuel on both sides). -/
theorem pyReplaceGo_eq_render (old new : List Char) :
    ∀ (fuel : Nat) (s : List Char), s.length ≤ fuel →
      pyReplaceGo old new fuel s
        = render (subScanGo [old] (fun _ => 0) fuel s) (fun _ => new) := by
  intro fuel
  induction fuel with
  | zero =>
    intro s hs
    cases s with
    | nil => rfl
    | cons c cs => simp at hs
  | succ fu ih =>
    intro s hs
    cases s with
    | nil => rfl
    | cons c cs =>
      rw [pyReplaceGo, subScanGo]
      by_cases hc : (!old.isEmpty && old.isPrefixOf (c :: cs)) = true
      · rw [if_pos hc]
        have hfm : firstMatch [old] (c :: cs) = some old := by
          rw [firstMatch, if_pos hc]
        rw [hfm]
        dsimp only
        rw [render]
        congr 1
        have hone : 0 < old.length := by
          have hc2 := hc
          simp only [Bool.and_eq_true] at hc2
          cases old with
          | nil => simp at hc2
          | cons _ _ => simp
        apply ih
        simp only [List.length_drop, List.length_cons]
        simp only [List.length_cons] at hs
        omega
      · rw [if_neg hc]
        have hfm : firstMatch [old] (c :: cs) = none := by
          rw [firstMatch, if_neg hc]
          rfl
        rw [hfm]
        dsimp only
        rw [render]
        congr 1
        apply ih
        simp only [List.length_cons] at hs
        omega

/-- `pyReplace` via the scanner. -/
theorem pyReplace_eq_render (s old new : List Char) :
    pyReplace s old new = render (subScan [old] (fun _ => 0) s) (fun _ => new) := by
  rw [pyReplace, subScan]
  exact pyReplaceGo_eq_render old new s.length s (le_refl _)

/-- C9: the alternate URL after a failed first fetch is computed with
Python `str.replace`, which swaps every occurrence of `jpg` (resp.
`png`) anywhere in the URL, not only the final extension segment: on a
URL of the shape `P0 ++ jpg ++ P1 ++ jpg ++ P2` (clean occurrences,
e.g. a `jpg` directory name plus the `.jpg` extension) both occurrences
become `png`. -/
theorem C9_replace_everywhere :
    (∀ url : List Char, extOf url = chars "jpg" →
        (altUrlOf url).1 = pyReplace url (chars "jpg") (chars "png"))
    ∧ (∀ url : List Char, extOf url ≠ chars "jpg" →
        (altUrlOf url).1 = pyReplace url (chars "png") (chars "jpg"))
    ∧ (∀ P0 P1 P2 : List Char,
        cleanB [chars "jpg"] [P0, P1, P2] [chars "jpg", chars "jpg"] = true →
        pyReplace (interleave [P0, P1, P2] [chars "jpg", chars "jpg"])
            (chars "jpg") (chars "png")
          = P0 ++ chars "png" ++ P1 ++ chars "png" ++ P2) := by
  refine ⟨?_, ?_, ?_⟩
  · intro url h
    rw [altUrlOf, if_pos h]
  · intro url h
    rw [altUrlOf, if_neg h]
  · intro P0 P1 P2 hcl
    rw [pyReplace_eq_render,
      subScan_clean [chars "jpg"] (fun _ => 0) [P0, P1, P2]
        [chars "jpg", chars "jpg"] hcl]
    rw [tmplToks, tmplToks, tmplToks]
    simp only [render_append, render_map_ch]
    simp [render, List.append_assoc]

/-- C9 witness: on `https://h/jpgdir/1.jpg` (whose last dot-segment is
`jpg`) the alternate URL swaps both the directory name and the
extension. -/
theorem C9_witness :
    (extOf (interleave [chars "https://h/", chars "dir/1.", []]
          [chars "jpg", chars "jpg"]) = chars "jpg"
      ∧ cleanB [chars "jpg"] [chars "https://h/", chars "dir/1.", []]
          [chars "jpg", chars "jpg"] = true)
    ∧ pyReplace (interleave [chars "https://h/", chars "dir/1.", []]
          [chars "jpg", chars "jpg"]) (chars "jpg") (chars "png")
        = chars "https://h/" ++ chars "png" ++ chars "dir/1." ++ chars "png" ++ [] :=
  ⟨⟨by decide, by decide⟩,
    C9_replace_everywhere.2.2 (chars "https://h/") (chars "dir/1.") [] (by decide)⟩

/- ====================  claim C8  ==================== -/

/-- The key order is total. -/
theorem keyLE_total (a b : Option Int) : keyLE a b = true ∨ keyLE b a = true := by
  cases a <;> cases b <;> simp [keyLE] <;> omega

/-- The key order is transitive. -/
theorem keyLE_trans {a b c : Option Int} (h1 : keyLE a b = true)
    (h2 : keyLE b c = true) : keyLE a c = true := by
  cases a <;> cases b <;> cases c <;> simp [keyLE] at * <;> omega

/-- Filename comparison is total. -/
theorem fileLE_total (a b : List Char) : fileLE a b = true ∨ fileLE b a = true :=
  keyLE_total _ _

/-- Filename comparison is transitive. -/
theorem fileLE_trans {a b c : List Char} (h1 : fileLE a b = true)
    (h2 : fileLE b c = true) : fileLE a c = true :=
  keyLE_trans h1 h2

/-- Members of an insertion. -/
theorem mem_insertK {x y : List Char} :
    ∀ {l : List (List Char)}, y ∈ insertK x l → y = x ∨ y ∈ l := by
  intro l
  induction l with
  | nil => intro h; simpa [insertK] using h
  | cons z zs ih =>
    intro h
    rw [insertK] at h
    by_cases hc : fileLE x z = true
    · rw [if_pos hc] at h
      rcases List.mem_cons.mp h with h1 | h1
      · exact Or.inl h1
      · exact Or.inr h1
    · rw [if_neg hc] at h
      rcases List.mem_cons.mp h with h1 | h1
      · exact Or.inr (by simp [h1])
      · rcases ih h1 with h2 | h2
        · exact Or.inl h2
        · exact Or.inr (by simp [h2])

/-- Insertion permutes. -/
theorem insertK_perm (x : List Char) :
    ∀ l : List (List Char), (insertK x l).Perm (x :: l) := by
  intro l
  induction l with
  | nil => simp [insertK]
  | cons z zs ih =>
    rw [insertK]
    split
    · exact List.Perm.refl _
    · exact (ih.cons z).trans (List.Perm.swap x z zs)

/-- The sort permutes its input. -/
theorem sortK_perm : ∀ l : List (List Char), (sortK l).Perm l := by
  intro l
  induction l with
  | nil => simp [sortK]
  | cons x xs ih =>
    rw [sortK]
    exact (insertK_perm x (sortK xs)).trans (ih.cons x)

/-- Insertion preserves sortedness. -/
theorem insertK_sorted {x : List Char} :
    ∀ {l : List (List Char)}, l.Pairwise (fun a b => fileLE a b = true) →
      (insertK x l).Pairwise (fun a b => fileLE a b = true) := by
  intro l
  induction l with
  | nil => intro _; simp [insertK]
  | cons z zs ih =>
    intro hp
    rcases List.pairwise_cons.mp hp with ⟨hz, hzs⟩
    rw [insertK]
    by_cases hc : fileLE x z = true
    · rw [if_pos hc]
      refine List.pairwise_cons.mpr ⟨?_, hp⟩
      intro y hy
      rcases List.mem_cons.mp hy with rfl | hy2
      · exact hc
      · exact fileLE_trans hc (hz y hy2)
    · rw [if_neg hc]
      refine List.pairwise_cons.mpr ⟨?_, ih hzs⟩
      intro y hy
      rcases mem_insertK hy with rfl | hy2
      · rcases fileLE_total y z with h | h
        · exact absurd h hc
        · exact h
      · exact hz y hy2

/-- The sort sorts. -/
theorem sortK_sorted : ∀ l : List (List Char),
    (sortK l).Pairwise (fun a b => fileLE a b = true) := by
  intro l
  induction l with
  | nil => simp [sortK]
  | cons x xs ih =>
    rw [sortK]
    exact insertK_sorted ih

/-- In a key-sorted list, every parseable stem precedes every
unparseable one: the list is its parseable prefix followed by its
unparseable suffix. -/
theorem sorted_somes_first :
    ∀ l : List (List Char), l.Pairwise (fun a b => fileLE a b = true) →
      l.filter (fun f => (safe_sort_key f).isSome)
        ++ l.filter (fun f => !(safe_sort_key f).isSome) = l := by
  intro l
  induction l with
  | nil => intro _; rfl
  | cons x xs ih =>
    intro hp
    rcases List.pairwise_cons.mp hp with ⟨hx, hxs⟩
    by_cases hs : (safe_sort_key x).isSome = true
    · rw [List.filter_cons_of_pos (by simpa using hs),
        List.filter_cons_of_neg (by simp [hs]), List.cons_append, ih hxs]
    · have hall : ∀ y ∈ xs, (safe_sort_key y).isSome = false := by
        intro y hy
        have hle := hx y hy
        rw [fileLE] at hle
        cases hkx : safe_sort_key x with
        | some _ => rw [hkx] at hs; simp at hs
        | none =>
          rw [hkx] at hle
          cases hky : safe_sort_key y with
          | some _ => rw [hky] at hle; simp [keyLE] at hle
          | none => simp [hky]
      have h1 : (x :: xs).filter (fun f => (safe_sort_key f).isSome) = [] := by
        rw [List.filter_cons_of_neg (by simp [hs])]
        apply List.filter_eq_nil.mpr
        intro a ha
        simp [hall a ha]
      have h2 : (x :: xs).filter (fun f => !(safe_sort_key f).isSome) = x :: xs := by
        apply List.filter_eq_self.mpr
        intro a ha
        rcases List.mem_cons.mp ha with rfl | ha2
        · simp [hs]
        · simp [hall a ha2]
      rw [h1, h2, List.nil_append]

/-- C8: whatever multiset of saved filenames the concurrent downloads
produce, and in whatever completion order it is collected, the entries
`_create_zip` writes are the filenames sorted ascending by
`_safe_sort_key` — integer stems ascending, with every filename whose
stem does not parse as an integer after all that do — and the archive
holds exactly the collected filenames. -/
theorem C8_archive_order (folder title : List Char) (done : List (List Char)) :
    (create_zip folder title (sortK done)).2.Pairwise (fun a b => fileLE a b = true)
    ∧ ((create_zip folder title (sortK done)).2).Perm done
    ∧ (create_zip folder title (sortK done)).2.filter (fun f => (safe_sort_key f).isSome)
        ++ (create_zip folder title (sortK done)).2.filter
            (fun f => !(safe_sort_key f).isSome)
      = (create_zip folder title (sortK done)).2 :=
  ⟨sortK_sorted done, sortK_perm done, sorted_somes_first (sortK done) (sortK_sorted done)⟩

/- ====================  claim C10  ==================== -/

/-- C10: as soon as the materialized URL list is nonempty, the first
worker's rate-limiter gate evaluates `last_request_time[0]` on a float
and the whole run dies with `TypeError` — no download happens and no
archive is ever written; with an empty list `_download_list` returns
before the gate, also without writing an archive.  The intended "always
archive, even with zero successes" behaviour is unreachable. -/
theorem C10_pipeline_type_error :
    (∀ (env : List Char → Nat → Resp) (saveOk : List Char → Bool)
        (folder title : List Char) (urls : List (List Char)), urls ≠ [] →
        download_list env saveOk folder title urls = Except.error RunErr.typeError)
    ∧ (∀ (env : List Char → Nat → Resp) (saveOk : List Char → Bool)
        (folder title : List Char),
        download_list env saveOk folder title [] = Except.ok none) := by
  constructor
  · intro env saveOk folder title urls hne
    rw [download_list, if_neg (by simpa using hne)]
    rfl
  · intro env saveOk folder title
    rw [download_list]
    rfl

/-- C10 witness: a one-URL list crashes with `TypeError`; the empty
list returns with no archive. -/
theorem C10_witness :
    (([chars "//i/1.jpg"] : List (List Char)) ≠ []
      ∧ download_list (fun _ _ => Resp.ok) (fun _ => true) (chars "f") (chars "t")
          [chars "//i/1.jpg"] = Except.error RunErr.typeError)
    ∧ download_list (fun _ _ => Resp.ok) (fun _ => true) (chars "f") (chars "t") []
        = Except.ok none :=
  ⟨⟨by decide,
      C10_pipeline_type_error.1 (fun _ _ => Resp.ok) (fun _ => true) (chars "f")
        (chars "t") [chars "//i/1.jpg"] (by decide)⟩,
    C10_pipeline_type_error.2 (fun _ _ => Resp.ok) (fun _ => true) (chars "f") (chars "t")⟩
